import Mathlib

/-!
Verification of the resilience substrate of the scriptassist service:
the Redis-backed CacheService, the sliding-window RateLimitService and
the in-process BackpressureInterceptor, shallowly embedded in Lean from
the TypeScript source.  Times are modeled as integers (milliseconds for
the rate-limiter scores, seconds for cache TTLs), the Redis store as an
explicit association list, and the connection-event callbacks as a step
function on the service state.
-/

/-! ## JSON values

Cached values are serialized with the platform functions JSON.stringify
and JSON.parse, which are external to the repository.  They are modeled
semantically: a Json tree (so that structural equality of nested objects
is meaningful), a Payload type for the stored serialized form, with
stringify producing a well-formed payload and parse succeeding exactly on
well-formed payloads, returning the original structure.  A corrupt stored
string, the case where JSON.parse throws, is the other payload form. -/

inductive Json where
  | null
  | bool (b : Bool)
  | num (n : Int)
  | str (s : String)
  | arr (elems : List Json)
  | obj (fields : List (String × Json))

/-- The serialized form of a value as it sits in the store. -/
inductive Payload where
  | wellFormed (v : Json)
  | corrupt

/-- Model of JSON.stringify: always succeeds on a Json tree. -/
def stringify (v : Json) : Payload := .wellFormed v

/-- Model of JSON.parse: succeeds exactly on well-formed payloads and
returns the original structure; throws (here: none) on corrupt data. -/
def parse : Payload → Option Json
  | .wellFormed v => some v
  | .corrupt => none

theorem parse_stringify (v : Json) : parse (stringify v) = some v := rfl

/-! ## Glob matching

CacheService.invalidatePattern enumerates keys with the Redis KEYS
command, whose glob matching is implemented by the Redis server
(stringmatchlen in util.c), external to the repository.  It is modeled
here following that algorithm: a star matches any sequence, a question
mark any single character, brackets a character class with optional
caret negation and dash ranges, and a backslash escapes the next
character.  Fuel bounds the recursion; every recursive step consumes at
least one pattern or subject character, so the initial fuel of
pattern length plus subject length plus one is always sufficient. -/

/-- Scans a bracket character class, returning whether the character
matched any alternative and the pattern remainder after the closing
bracket.  An unterminated class ends at the end of the pattern. -/
def matchClass : List Char → Char → Bool → Bool × List Char
  | '\\' :: x :: rest, c, found => matchClass rest c (found || x == c)
  | ']' :: rest, _, found => (found, rest)
  | a :: '-' :: b :: rest, c, found =>
      let lo := if a ≤ b then a else b
      let hi := if a ≤ b then b else a
      matchClass rest c (found || (decide (lo ≤ c) && decide (c ≤ hi)))
  | a :: rest, c, found => matchClass rest c (found || a == c)
  | [], _, found => (found, [])

def globMatchFuel : Nat → List Char → List Char → Bool
  | 0, _, _ => false
  | _ + 1, [], [] => true
  | _ + 1, [], _ :: _ => false
  | fuel + 1, '*' :: p, s =>
      globMatchFuel fuel p s ||
        (match s with
          | [] => false
          | _ :: s2 => globMatchFuel fuel ('*' :: p) s2)
  | _ + 1, _ :: _, [] => false
  | fuel + 1, '?' :: p, _ :: s => globMatchFuel fuel p s
  | fuel + 1, '[' :: p, c :: s =>
      let negAndBody := match p with
        | '^' :: t => (true, t)
        | _ => (false, p)
      let res := matchClass negAndBody.2 c false
      if (if negAndBody.1 then !res.1 else res.1) then globMatchFuel fuel res.2 s
      else false
  | fuel + 1, '\\' :: x :: p, c :: s =>
      if x == c then globMatchFuel fuel p s else false
  | fuel + 1, x :: p, c :: s =>
      if x == c then globMatchFuel fuel p s else false

/-- Redis-style glob match of a pattern against a key. -/
def globMatch (pat key : String) : Bool :=
  globMatchFuel (pat.length + key.length + 1) pat.toList key.toList

/-! ## CacheService

Shallow embedding of CacheService (src, part_007 lines 12 to 296).  The
Redis string store is an association list of entries with an absolute
expiry time in seconds; SETEX, GET, DEL and KEYS are modeled with their
documented semantics (an entry past its expiry is invisible).  The
service state carries the isHealthy flag, the reconnect counter and the
pending markUnhealthy recovery timer delay, the model of the setTimeout
scheduled by markUnhealthy. -/

namespace CacheService

structure Entry where
  key : String
  val : Payload
  expireAt : Int

/-- Process state of the service: the isHealthy flag consulted by every
operation, the reconnect attempt counter mutated by connection events,
and the delay of a pending markUnhealthy recovery timer, if any. -/
structure State where
  isHealthy : Bool
  store : List Entry
  reconnectAttempts : Nat
  recovery : Option Int

/-- defaultTTL = 300 seconds, five minutes. -/
def defaultTTL : Int := 300

/-- markUnhealthy(recoveryDelayMs): flips the flag off and schedules the
recovery check after the given delay (source lines 277 to 286). -/
def markUnhealthy (s : State) (recoveryDelayMs : Int) : State :=
  { s with isHealthy := false, recovery := some recoveryDelayMs }

/-- Redis GET: the stored payload, unless absent or past its expiry. -/
def redisGet (store : List Entry) (now : Int) (k : String) : Option Payload :=
  match store.find? (fun e => e.key == k) with
  | some e => if now < e.expireAt then some e.val else none
  | none => none

/-- Redis SETEX key ttl value: replaces the entry and sets its expiry. -/
def redisSetex (store : List Entry) (now : Int) (k : String) (ttl : Int)
    (v : Payload) : List Entry :=
  { key := k, val := v, expireAt := now + ttl } :: store.filter (fun e => e.key != k)

/-- Whether the store holds a live (non-expired) entry for the key. -/
def isLive (store : List Entry) (now : Int) (k : String) : Bool :=
  (redisGet store now k).isSome

/-- Redis DEL k1 ... kn: removes the entries and returns how many of the
given keys existed. -/
def redisDel (store : List Entry) (now : Int) (ks : List String) : Nat × List Entry :=
  ((ks.filter (fun k => isLive store now k)).length,
   store.filter (fun e => !ks.contains e.key))

/-- Redis KEYS pattern: the live keys matching the glob pattern. -/
def redisKeys (store : List Entry) (now : Int) (pat : String) : List String :=
  (store.filter (fun e => decide (now < e.expireAt) && globMatch pat e.key)).map
    (fun e => e.key)

/-- CacheService.set (source lines 87 to 112).  Skips when unhealthy.
The source computes the effective TTL as ttlSeconds or defaultTTL, so the
JS-falsy value 0 also falls back to the default.  A negative TTL makes
SETEX reject; the thrown error is caught and marks the service unhealthy
for 30000 ms. -/
def set (s : State) (now : Int) (k : String) (v : Json)
    (ttlSeconds : Option Int) : State :=
  if !s.isHealthy then s
  else
    let ttl := match ttlSeconds with
      | some t => if t == 0 then defaultTTL else t
      | none => defaultTTL
    if ttl < 0 then markUnhealthy s 30000
    else { s with store := redisSetex s.store now k ttl (stringify v) }

/-- CacheService.get (source lines 119 to 148).  Returns none when the
flag is off, on a miss, and on a deserialization failure; the JSON.parse
throw is caught, marks the service unhealthy for 30000 ms and degrades
to none. -/
def get (s : State) (now : Int) (k : String) : Option Json × State :=
  if !s.isHealthy then (none, s)
  else
    match redisGet s.store now k with
    | some p =>
        match parse p with
        | some v => (some v, s)
        | none => (none, markUnhealthy s 30000)
    | none => (none, s)

/-- CacheService.delete (source lines 155 to 170). -/
def deleteKey (s : State) (now : Int) (k : String) : Bool × State :=
  if !s.isHealthy then (false, s)
  else
    let res := redisDel s.store now [k]
    (decide (0 < res.1), { s with store := res.2 })

/-- The deletion batch size of invalidatePattern (source line 232). -/
def batchSize : Nat := 1000

/-- Splits the key list into consecutive batches of at most batchSize
keys, the slices taken by the source loop. -/
def batches : List String → List (List String)
  | [] => []
  | x :: xs => (x :: xs).take batchSize :: batches ((x :: xs).drop batchSize)
termination_by l => l.length
decreasing_by
  simp only [List.length_drop, List.length_cons, batchSize]
  omega

/-- One iteration of the deletion loop: delete the batch against the
current store and add the per-batch deletion count to the total. -/
def delStep (now : Int) (acc : Nat × List Entry) (batch : List String) :
    Nat × List Entry :=
  let d := redisDel acc.2 now batch
  (acc.1 + d.1, d.2)

/-- CacheService.invalidatePattern (source lines 214 to 250): enumerate
matching keys, then delete them in batches of at most 1000, summing the
per-batch deletion counts. -/
def invalidatePattern (s : State) (now : Int) (pat : String) : Nat × State :=
  if !s.isHealthy then (0, s)
  else
    let keys := redisKeys s.store now pat
    if keys.isEmpty then (0, s)
    else
      let res := (batches keys).foldl (delStep now) (0, s.store)
      (res.1, { s with store := res.2 })

/-- Connection and failure events that mutate the health state: the
ioredis connect, error, reconnecting and close handlers registered in
the constructor (source lines 53 to 78), an operation failure calling
markUnhealthy(30000), and the firing of the markUnhealthy setTimeout,
whose callback re-derives health from the connection status. -/
inductive Event where
  | connectEvt
  | errorEvt
  | reconnectingEvt
  | closeEvt
  | opFailure
  | recoveryTimer (ready : Bool)
deriving Repr, DecidableEq

/-- One event handler step on the service state. -/
def handle (s : State) : Event → State
  | .connectEvt => { s with isHealthy := true, reconnectAttempts := 0 }
  | .errorEvt => { s with isHealthy := false }
  | .reconnectingEvt => { s with reconnectAttempts := s.reconnectAttempts + 1 }
  | .closeEvt => { s with isHealthy := false }
  | .opFailure => markUnhealthy s 30000
  | .recoveryTimer ready =>
      if ready then { s with isHealthy := true, recovery := none }
      else { s with recovery := none }

/-- A sequence of events applied in order. -/
def handleAll (s : State) (es : List Event) : State := es.foldl handle s

end CacheService

/-! ## RateLimitService

Shallow embedding of RateLimitService.checkRateLimit (src, part_007
lines 353 to 405).  The per-key Redis sorted set is a list of member
scores, milliseconds timestamps; the pipelined ZREMRANGEBYSCORE, ZCARD,
ZADD and EXPIRE are modeled in their pipeline order.  Every ZADD member
carries a fresh random nonce, so insertion never collides with an
existing member and is modeled as an append.  Math.floor and Math.ceil
of the exact division by 1000 are modeled with integer floor division. -/

namespace RateLimitService

/-- Math.floor of the exact rational a / b, for b positive; Euclidean
division by a positive divisor is floor division. -/
def jsFloorDiv (a b : Int) : Int := a / b

/-- Math.ceil of the exact rational a / b, for b positive. -/
def jsCeilDiv (a b : Int) : Int := -((-a) / b)

structure RateLimitResult where
  allowed : Bool
  limit : Int
  remaining : Int
  reset : Int
  retryAfter : Option Int
deriving Repr, DecidableEq

/-- The result record built by checkRateLimit from the ZCARD count taken
before the insertion (source lines 381 to 394). -/
def mkResult (limit windowSeconds now count : Int) : RateLimitResult :=
  let remaining := max 0 (limit - count - 1)
  let allowed := decide (count < limit)
  let reset := now + windowSeconds * 1000
  let retryAfter : Int := if allowed then 0 else jsCeilDiv (reset - now) 1000
  { allowed := allowed
    limit := limit
    remaining := remaining
    reset := jsFloorDiv reset 1000
    retryAfter := some retryAfter }

/-- checkRateLimit on a reachable store: prune members with score in
[0, windowStart], read the count, append the new member scored now, and
build the result from the pre-insertion count. -/
def checkRateLimit (limit windowSeconds now : Int) (w : List Int) :
    RateLimitResult × List Int :=
  let windowStart := now - windowSeconds * 1000
  let pruned := w.filter (fun a => !decide (0 ≤ a ∧ a ≤ windowStart))
  let count : Int := pruned.length
  (mkResult limit windowSeconds now count, pruned ++ [now])

/-- checkRateLimit including the catch branch: when the pipelined store
operation cannot complete (store unreachable), the request is allowed
with the full limit as remaining and no retryAfter, and the window is
untouched (source lines 395 to 404). -/
def checkRateLimitE (reachable : Bool) (limit windowSeconds now : Int)
    (w : List Int) : RateLimitResult × List Int :=
  if reachable then checkRateLimit limit windowSeconds now w
  else
    ({ allowed := true
       limit := limit
       remaining := limit
       reset := jsFloorDiv (now + windowSeconds * 1000) 1000
       retryAfter := none }, w)

/-- A sequence of checkRateLimit calls against one key, at the given
call times, threading the window through and collecting the results. -/
def runCalls (limit windowSeconds : Int) (w : List Int) :
    List Int → List RateLimitResult × List Int
  | [] => ([], w)
  | t :: ts =>
      let step := checkRateLimit limit windowSeconds t w
      let rest := runCalls limit windowSeconds step.2 ts
      (step.1 :: rest.1, rest.2)

end RateLimitService

/-! ## BackpressureInterceptor

Shallow embedding of BackpressureInterceptor (src, part_008).  The
process-local activeRequests counter is an integer; intercept checks
capacity and increments, and every admitted request is released exactly
once through the hasDecremented-guarded catchError and finalize
callbacks.  A trace of enter (an admission attempt) and leave (a release
on some exit path) events models an interleaving of requests. -/

namespace Backpressure

/-- Constructor validation (source lines 27 to 38): a non-positive
configured maximum falls back to the default 1000. -/
def maxConcurrentOf (configured : Int) : Int :=
  if configured ≤ 0 then 1000 else configured

/-- checkCapacity (source lines 91 to 93). -/
def checkCapacity (maxConcurrent activeRequests : Int) : Bool :=
  decide (activeRequests < maxConcurrent)

/-- incrementCounter (source lines 98 to 121); the logging it performs
has no effect on the counter. -/
def incrementCounter (activeRequests : Int) : Int := activeRequests + 1

/-- decrementCounter (source lines 126 to 138): guarded so the counter
never goes negative. -/
def decrementCounter (activeRequests : Int) : Int :=
  if 0 < activeRequests then activeRequests - 1 else activeRequests

/-- The admission prefix of intercept (source lines 45 to 64): reject
when at capacity, otherwise increment; the Bool is whether the request
was admitted. -/
def intercept (maxConcurrent activeRequests : Int) : Bool × Int :=
  if checkCapacity maxConcurrent activeRequests then
    (true, incrementCounter activeRequests)
  else (false, activeRequests)

/-- The hasDecremented-guarded release used in both the catchError and
the finalize callback (source lines 67 to 84). -/
def releaseGuarded (hasDecremented : Bool) (activeRequests : Int) :
    Bool × Int :=
  if hasDecremented then (true, activeRequests)
  else (true, decrementCounter activeRequests)

/-- The error exit path: catchError fires the guarded release, then
finalize fires it again; the guard makes the pair decrement once. -/
def onErrorThenFinalize (activeRequests : Int) : Int :=
  let afterCatch := releaseGuarded false activeRequests
  (releaseGuarded afterCatch.1 afterCatch.2).2

/-- An admission attempt or a release (any completed exit path). -/
inductive BPEvent where
  | enter
  | leave
deriving Repr, DecidableEq

/-- Number of admission attempts in a trace. -/
def enters : List BPEvent → Nat
  | [] => 0
  | .enter :: es => enters es + 1
  | .leave :: es => enters es

/-- Number of releases in a trace. -/
def leaves : List BPEvent → Nat
  | [] => 0
  | .enter :: es => leaves es
  | .leave :: es => leaves es + 1

/-- Runs a trace against the counter: the final counter value, and
whether every admission attempt in the trace was admitted. -/
def runBP (maxConcurrent : Int) (activeRequests : Int) :
    List BPEvent → Int × Bool
  | [] => (activeRequests, true)
  | .enter :: es =>
      let step := intercept maxConcurrent activeRequests
      let rest := runBP maxConcurrent step.2 es
      (rest.1, step.1 && rest.2)
  | .leave :: es => runBP maxConcurrent (decrementCounter activeRequests) es

/-- A well-formed interleaving relative to a running active count: every
release is preceded by a matching admission, so the count never drops
below zero. -/
def balanced : Int → List BPEvent → Bool
  | _, [] => true
  | c, .enter :: es => balanced (c + 1) es
  | c, .leave :: es => decide (0 < c) && balanced (c - 1) es

end Backpressure

/-! ## Claim theorems -/

open RateLimitService in
/-- C2: for every key, limit and windowSeconds, when the pipelined store
operation cannot complete because the store is unreachable, checkRateLimit
does not throw (the embedding is a total function taking the catch
branch): it returns allowed = true with remaining reported as the full
limit and no retryAfter, and the stored window, that is any prior
consumption for the key, is untouched and ignored. -/
theorem checkRateLimit_fails_open (limit windowSeconds now : Int) (w : List Int) :
    (checkRateLimitE false limit windowSeconds now w).1.allowed = true ∧
    (checkRateLimitE false limit windowSeconds now w).1.remaining = limit ∧
    (checkRateLimitE false limit windowSeconds now w).1.retryAfter = none ∧
    (checkRateLimitE false limit windowSeconds now w).2 = w :=
  ⟨rfl, rfl, rfl, rfl⟩

open RateLimitService in
/-- C9: every checkRateLimit call that reaches the store appends a new
member to the window sorted set, whether or not the call is allowed: the
resulting window is always the pruned window plus the new member, so its
size always grows by one over the pruned size.  The closed conjuncts
exhibit a rejected call (allowed = false) whose member is nevertheless
inserted. -/
theorem checkRateLimit_inserts_even_when_rejected
    (limit windowSeconds now : Int) (w : List Int) :
    (checkRateLimit limit windowSeconds now w).2 =
      w.filter (fun a => !decide (0 ≤ a ∧ a ≤ now - windowSeconds * 1000)) ++ [now] ∧
    (checkRateLimit limit windowSeconds now w).2.length =
      (w.filter (fun a => !decide (0 ≤ a ∧ a ≤ now - windowSeconds * 1000))).length + 1 ∧
    (checkRateLimit 1 60 5 [3]).1.allowed = false ∧
    (checkRateLimit 1 60 5 [3]).2 = [3, 5] := by
  refine ⟨rfl, ?_, by decide, by decide⟩
  simp [checkRateLimit]

open RateLimitService in
/-- C5 counterexample: limit = 1, windowSeconds = 60, a first call at
0 ms and a second at 30000 ms.  The second call is rejected; the oldest
member (score 0) expires 60000 ms after its insertion, so the window
time remaining until it expires is 30000 ms and its ceiling in seconds
is 30 — but the code returns retryAfter = 60, the full window, because
it computes ceil((reset - now) / 1000) with reset = now + 60000. -/
theorem retryAfter_not_oldest_expiry :
    (runCalls 1 60 [] [0, 30000]).1.get? 1 =
      some { allowed := false, limit := 1, remaining := 0, reset := 90,
             retryAfter := some 60 } ∧
    jsCeilDiv (0 + 60 * 1000 - 30000) 1000 = 30 ∧
    (60 : Int) ≠ 30 := by decide

open RateLimitService in
/-- C5 amended: for every rejected checkRateLimit call the returned
retryAfterSeconds equals the full windowSeconds — the code computes
ceil((reset - now) / 1000) with reset = now + windowSeconds * 1000, so
the value does not depend on the age of the oldest member.  In the
concrete scenario limit = 5, windowSeconds = 60 with six rapid calls,
the sixth result is rejected with retryAfterSeconds = 60, which lies
between 1 and 60. -/
theorem retryAfter_equals_window (limit windowSeconds now : Int) (w : List Int)
    (hrej : (checkRateLimit limit windowSeconds now w).1.allowed = false) :
    (checkRateLimit limit windowSeconds now w).1.retryAfter = some windowSeconds ∧
    ((runCalls 5 60 [] [0, 1, 2, 3, 4, 5]).1.map RateLimitResult.allowed =
        [true, true, true, true, true, false] ∧
      ((runCalls 5 60 [] [0, 1, 2, 3, 4, 5]).1.map RateLimitResult.retryAfter).get? 5 =
        some (some 60) ∧
      (1 : Int) ≤ 60 ∧ (60 : Int) ≤ 60) := by
  refine ⟨?_, by decide, by decide, by decide, by decide⟩
  have hceil : jsCeilDiv (now + windowSeconds * 1000 - now) 1000 = windowSeconds := by
    simp only [jsCeilDiv]
    omega
  simp only [checkRateLimit, mkResult] at hrej ⊢
  rw [if_neg]
  · exact congrArg some hceil
  · simp only [decide_eq_false_iff_not] at hrej
    simpa using hrej

open RateLimitService in
/-- Witness for the amended C5 theorem at a concrete rejected call. -/
theorem retryAfter_equals_window_witness :
    (checkRateLimit 1 60 30000 [0]).1.retryAfter = some 60 :=
  (retryAfter_equals_window 1 60 30000 [0] (by decide)).1

namespace RateLimitService

/-- When every member of the window is non-negative and younger than the
window, the pruning step removes nothing, so the ZCARD count is the full
window size and the call just appends its member. -/
theorem checkRateLimit_no_prune (limit windowSeconds now : Int) (w : List Int)
    (h0 : ∀ a ∈ w, 0 ≤ a)
    (hfresh : ∀ a ∈ w, now - a < windowSeconds * 1000) :
    checkRateLimit limit windowSeconds now w =
      (mkResult limit windowSeconds now w.length, w ++ [now]) := by
  have hfil : w.filter
      (fun a => !decide (0 ≤ a ∧ a ≤ now - windowSeconds * 1000)) = w := by
    rw [List.filter_eq_self]
    intro a ha
    have h1 := h0 a ha
    have h2 := hfresh a ha
    simp only [Bool.not_eq_true', decide_eq_false_iff_not]
    omega
  simp only [checkRateLimit, hfil]

/-- Running a sequence of calls whose times all lie within one window of
each other, against a starting window whose members are all fresh for
every call: each call sees exactly the members accumulated so far, so the
k-th processed call (zero-based) observes count = prior window size plus
k, and the final window is the start window plus all call times. -/
theorem runCalls_spec (limit windowSeconds : Int) :
    ∀ (ts w : List Int),
    (∀ a ∈ w, 0 ≤ a) →
    (∀ t ∈ ts, 0 ≤ t) →
    (∀ t ∈ ts, ∀ a ∈ w, t - a < windowSeconds * 1000) →
    (∀ a ∈ ts, ∀ b ∈ ts, a - b < windowSeconds * 1000) →
    (runCalls limit windowSeconds w ts).2 = w ++ ts ∧
    ∀ k t, ts.get? k = some t →
      (runCalls limit windowSeconds w ts).1.get? k =
        some (mkResult limit windowSeconds t ((w.length : Int) + k))
  | [], w => by
      intro _ _ _ _
      exact ⟨by simp [runCalls], by intro k t h; simp at h⟩
  | t :: ts, w => by
      intro hw0 hpos hsurv hwin
      have hstep := checkRateLimit_no_prune limit windowSeconds t w hw0
        (fun a ha => hsurv t (List.mem_cons_self t ts) a ha)
      have hw0' : ∀ a ∈ w ++ [t], 0 ≤ a := by
        intro a ha
        rcases List.mem_append.mp ha with h | h
        · exact hw0 a h
        · simp at h
          exact h ▸ hpos t (List.mem_cons_self t ts)
      have hpos' : ∀ u ∈ ts, 0 ≤ u := fun u hu => hpos u (List.mem_cons_of_mem t hu)
      have hsurv' : ∀ u ∈ ts, ∀ a ∈ w ++ [t], u - a < windowSeconds * 1000 := by
        intro u hu a ha
        rcases List.mem_append.mp ha with h | h
        · exact hsurv u (List.mem_cons_of_mem t hu) a h
        · simp at h
          rw [h]
          exact hwin u (List.mem_cons_of_mem t hu) t (List.mem_cons_self t ts)
      have hwin' : ∀ a ∈ ts, ∀ b ∈ ts, a - b < windowSeconds * 1000 :=
        fun a ha b hb =>
          hwin a (List.mem_cons_of_mem t ha) b (List.mem_cons_of_mem t hb)
      have ih := runCalls_spec limit windowSeconds ts (w ++ [t])
        hw0' hpos' hsurv' hwin'
      refine ⟨?_, ?_⟩
      · show (runCalls limit windowSeconds w (t :: ts)).2 = w ++ t :: ts
        simp only [runCalls, hstep]
        rw [ih.1]
        simp
      · intro k u hk
        match k, hk with
        | 0, hk =>
            simp only [List.get?] at hk
            cases hk
            simp only [runCalls, hstep, List.get?]
            norm_num
        | k + 1, hk =>
            simp only [List.get?] at hk
            have := ih.2 k u hk
            simp only [runCalls, hstep, List.get?]
            rw [this]
            congr 2
            simp only [List.length_append, List.length_cons, List.length_nil]
            push_cast
            ring

end RateLimitService

open RateLimitService in
/-- C1: for every tracking key (the window list stands for the key's
sorted set, starting empty), every limit >= 1 and every windowSeconds,
when the store is reachable, the k-th call (zero-based index k, so the
(k+1)-st call) within one window observes countBeforeInsertion = k and
returns exactly the record the code builds from that count: allowed =
(count < limit) and remaining = max(0, limit - count - 1).  Hence the
first limit calls are all admitted and the call with index limit — the
(limit+1)-th call — is rejected.  The within-one-window hypothesis is
that any two call times differ by less than windowSeconds * 1000 ms. -/
theorem sliding_window_admission (limit windowSeconds : Int) (ts : List Int)
    (_hlim : 1 ≤ limit)
    (hpos : ∀ t ∈ ts, 0 ≤ t)
    (hwin : ∀ a ∈ ts, ∀ b ∈ ts, a - b < windowSeconds * 1000) :
    (runCalls limit windowSeconds [] ts).2 = ts ∧
    (∀ k t, ts.get? k = some t →
      (runCalls limit windowSeconds [] ts).1.get? k =
        some (mkResult limit windowSeconds t k)) ∧
    (∀ k t, ts.get? k = some t →
      ∃ r, (runCalls limit windowSeconds [] ts).1.get? k = some r ∧
        r.allowed = decide ((k : Int) < limit) ∧
        r.remaining = max 0 (limit - k - 1)) := by
  have h := runCalls_spec limit windowSeconds ts []
    (by intro a ha; simp at ha) hpos (by intro t ht a ha; simp at ha) hwin
  have hres : ∀ k t, ts.get? k = some t →
      (runCalls limit windowSeconds [] ts).1.get? k =
        some (mkResult limit windowSeconds t k) := by
    intro k t hk
    have := h.2 k t hk
    simpa using this
  refine ⟨by simpa using h.1, hres, ?_⟩
  intro k t hk
  exact ⟨mkResult limit windowSeconds t k, hres k t hk, rfl, rfl⟩

open RateLimitService in
/-- Witness for the C1 theorem: limit = 2, windowSeconds = 60, three
calls at 0, 1 and 2 ms; the third call (index 2) observes count 2 and is
rejected. -/
theorem sliding_window_admission_witness :
    (runCalls 2 60 [] [0, 1, 2]).1.get? 2 = some (mkResult 2 60 2 2) ∧
    (mkResult 2 60 2 2).allowed = false :=
  ⟨(sliding_window_admission 2 60 [0, 1, 2] (by decide) (by decide)
      (by decide)).2.1 2 2 (by decide), by decide⟩

namespace Backpressure

/-- The counter stays within bounds: starting inside the range from 0 to
maxConcurrent, any trace of admission attempts and releases keeps it
there, since an admission increments only below capacity and a release
is guarded against going negative. -/
theorem runBP_bounds (maxC : Int) :
    ∀ (t : List BPEvent) (a : Int), 0 ≤ a → a ≤ maxC →
      0 ≤ (runBP maxC a t).1 ∧ (runBP maxC a t).1 ≤ maxC
  | [], a => fun h0 h1 => ⟨h0, h1⟩
  | .enter :: es, a => by
      intro h0 h1
      by_cases h : a < maxC
      · have hc : checkCapacity maxC a = true := by
          simp only [checkCapacity, decide_eq_true_eq]
          exact h
        have ih := runBP_bounds maxC es (a + 1) (by omega) (by omega)
        simpa [runBP, intercept, hc, incrementCounter] using ih
      · have hc : checkCapacity maxC a = false := by
          simp only [checkCapacity, decide_eq_false_iff_not]
          exact h
        have ih := runBP_bounds maxC es a h0 h1
        simpa [runBP, intercept, hc] using ih
  | .leave :: es, a => by
      intro h0 h1
      by_cases h : 0 < a
      · have ih := runBP_bounds maxC es (a - 1) (by omega) (by omega)
        simpa [runBP, decrementCounter, h] using ih
      · have ih := runBP_bounds maxC es a h0 h1
        simpa [runBP, decrementCounter, h] using ih

/-- Draining lemma: a balanced trace whose admissions never push the
counter past capacity admits every attempt and ends at the exact
difference of admissions and releases. -/
theorem runBP_drain (maxC : Int) :
    ∀ (t : List BPEvent) (a : Int), balanced a t = true →
      a + (enters t : Int) ≤ maxC →
      runBP maxC a t = (a + (enters t : Int) - (leaves t : Int), true)
  | [], a => by
      intro _ _
      simp [runBP, enters, leaves]
  | .enter :: es, a => by
      intro hbal hcap
      have hE : (enters (BPEvent.enter :: es) : Int) = (enters es : Int) + 1 := by
        simp [enters]
      have hL : leaves (BPEvent.enter :: es) = leaves es := rfl
      have hlt : a < maxC := by
        rw [hE] at hcap
        have : (0 : Int) ≤ (enters es : Int) := Int.natCast_nonneg _
        omega
      have hc : checkCapacity maxC a = true := by
        simp only [checkCapacity, decide_eq_true_eq]
        exact hlt
      have ih := runBP_drain maxC es (a + 1) hbal (by rw [hE] at hcap; omega)
      simp only [runBP, intercept, hc, if_true, incrementCounter, ih, hE, hL]
      simp only [Prod.mk.injEq, Bool.true_and, and_true]
      ring
  | .leave :: es, a => by
      intro hbal hcap
      have hE : enters (BPEvent.leave :: es) = enters es := rfl
      have hL : (leaves (BPEvent.leave :: es) : Int) = (leaves es : Int) + 1 := by
        simp [leaves]
      have hb := hbal
      simp only [balanced, Bool.and_eq_true, decide_eq_true_eq] at hb
      have hdec : decrementCounter a = a - 1 := by
        simp only [decrementCounter, if_pos hb.1]
      have ih := runBP_drain maxC es (a - 1) hb.2 (by rw [hE] at hcap; omega)
      simp only [runBP, hdec, ih, hE, hL, Prod.mk.injEq, and_true]
      ring

end Backpressure

open Backpressure in
/-- C3: in every state reachable from 0 the counter satisfies
0 <= activeRequests <= maxConcurrent; an admission attempt is rejected
exactly when activeRequests >= maxConcurrent at the time of the check;
for any interleaving of N <= maxConcurrent admit/release pairs (a
balanced trace with N admissions and N releases) every admission is
admitted and the final counter is exactly 0; and on the error exit path,
where both the catchError and the finalize callback fire, the
hasDecremented guard makes the pair decrement exactly once, so release
happens exactly once per exit path.  The constructor validation keeps
the configured maximum positive. -/
theorem backpressure_counter_correct (maxC : Int) (t : List BPEvent) (N : Nat)
    (hbal : balanced 0 t = true)
    (hE : enters t = N) (hL : leaves t = N) (hN : (N : Int) ≤ maxC) :
    (∀ u : List BPEvent, 0 ≤ (runBP maxC 0 u).1 ∧ (runBP maxC 0 u).1 ≤ maxC) ∧
    (∀ a : Int, (intercept maxC a).1 = false ↔ maxC ≤ a) ∧
    runBP maxC 0 t = (0, true) ∧
    (∀ a : Int, onErrorThenFinalize a = decrementCounter a) ∧
    (∀ c : Int, 1 ≤ maxConcurrentOf c) := by
  have hmax : (0 : Int) ≤ maxC := le_trans (Int.natCast_nonneg N) hN
  refine ⟨?_, ?_, ?_, ?_, ?_⟩
  · intro u
    exact runBP_bounds maxC u 0 le_rfl hmax
  · intro a
    by_cases h : a < maxC
    · have hc : checkCapacity maxC a = true := by
        simp only [checkCapacity, decide_eq_true_eq]
        exact h
      simp only [intercept, hc, if_true]
      constructor
      · intro hfalse
        exact absurd hfalse (by simp)
      · intro hle
        omega
    · have hc : checkCapacity maxC a = false := by
        simp only [checkCapacity, decide_eq_false_iff_not]
        exact h
      simp only [intercept, hc, Bool.false_eq_true, if_false]
      constructor
      · intro _
        omega
      · intro _
        trivial
  · have := runBP_drain maxC t 0 hbal (by rw [hE]; omega)
    rw [this, hE, hL]
    norm_num
  · intro a
    rfl
  · intro c
    simp only [maxConcurrentOf]
    by_cases h : c ≤ 0
    · simp [h]
    · simp [h]
      omega

open Backpressure in
/-- Witness for the C3 theorem: capacity 2, two admissions followed by
two releases; the trace drains back to 0 with every admission granted. -/
theorem backpressure_counter_correct_witness :
    runBP 2 0 [BPEvent.enter, BPEvent.enter, BPEvent.leave, BPEvent.leave] =
      (0, true) :=
  (backpressure_counter_correct 2
    [BPEvent.enter, BPEvent.enter, BPEvent.leave, BPEvent.leave] 2
    (by decide) (by decide) (by decide) (by decide)).2.2.1

namespace CacheService

/-- While no connect event and no recovery-timer event arrive, an
unhealthy service stays unhealthy: every other handler either clears the
flag or leaves it untouched. -/
theorem handleAll_stays_unhealthy :
    ∀ (es : List Event) (s : State), s.isHealthy = false →
      (∀ e ∈ es, e ≠ Event.connectEvt ∧ ∀ b, e ≠ Event.recoveryTimer b) →
      (handleAll s es).isHealthy = false
  | [], s => fun h _ => h
  | e :: es, s => by
      intro h hes
      have hrest : ∀ x ∈ es, x ≠ Event.connectEvt ∧
          ∀ b, x ≠ Event.recoveryTimer b :=
        fun x hx => hes x (List.mem_cons_of_mem e hx)
      have hstep : (handle s e).isHealthy = false := by
        have he := hes e (List.mem_cons_self e es)
        cases e with
        | connectEvt => exact absurd rfl he.1
        | errorEvt => rfl
        | reconnectingEvt => exact h
        | closeEvt => rfl
        | opFailure => rfl
        | recoveryTimer b => exact absurd rfl (he.2 b)
      exact handleAll_stays_unhealthy es (handle s e) hstep hrest

end CacheService

/-- C4 counterexample: an operation failure at some instant marks the
layer unhealthy and schedules the 30-second recovery timer; a connect
event from the underlying client arrives before that timer fires (the
recovery entry is still pending), and the layer already reports healthy
again — the claim that it stays unhealthy for the entire fixed window
even if the connection recovers sooner is false on this trace. -/
theorem cache_recovery_window_counterexample :
    (CacheService.handleAll
      { isHealthy := true, store := [], reconnectAttempts := 0, recovery := none }
      [CacheService.Event.opFailure, CacheService.Event.connectEvt]).isHealthy
        = true ∧
    (CacheService.handleAll
      { isHealthy := true, store := [], reconnectAttempts := 0, recovery := none }
      [CacheService.Event.opFailure, CacheService.Event.connectEvt]).recovery
        = some 30000 ∧
    ¬ (CacheService.handleAll
      { isHealthy := true, store := [], reconnectAttempts := 0, recovery := none }
      [CacheService.Event.opFailure, CacheService.Event.connectEvt]).isHealthy
        = false :=
  ⟨rfl, rfl, by simp [CacheService.handleAll, CacheService.handle]⟩

open CacheService in
/-- C4 amended: after an operation fails, markUnhealthy(30000) clears the
flag and schedules the 30-second recovery check, and the layer stays
unhealthy as long as no connect event and no recovery-timer event
arrives; when the timer fires, health is re-derived from the underlying
connection state (healthy exactly when the connection is ready).
However, a connect event from the underlying client marks the layer
healthy immediately, so the unhealthy period can end before the window
elapses (see the counterexample trace). -/
theorem cache_unhealthy_until_connect_or_timer (s : State)
    (es : List Event)
    (hes : ∀ e ∈ es, e ≠ Event.connectEvt ∧ ∀ b, e ≠ Event.recoveryTimer b) :
    (markUnhealthy s 30000).isHealthy = false ∧
    (markUnhealthy s 30000).recovery = some 30000 ∧
    (handleAll (markUnhealthy s 30000) es).isHealthy = false ∧
    (∀ s2 : State, (handle s2 (Event.recoveryTimer true)).isHealthy = true ∧
      (handle s2 (Event.recoveryTimer false)).isHealthy = s2.isHealthy) :=
  ⟨rfl, rfl,
   handleAll_stays_unhealthy es (markUnhealthy s 30000) rfl hes,
   fun _ => ⟨rfl, rfl⟩⟩

open CacheService in
/-- Witness for the amended C4 theorem: after the failure, an error and a
close event arrive within the window; the layer still reports unhealthy. -/
theorem cache_unhealthy_until_connect_or_timer_witness :
    (handleAll
      (markUnhealthy
        { isHealthy := true, store := [], reconnectAttempts := 0,
          recovery := none } 30000)
      [Event.errorEvt, Event.closeEvt]).isHealthy = false :=
  (cache_unhealthy_until_connect_or_timer
    { isHealthy := true, store := [], reconnectAttempts := 0, recovery := none }
    [Event.errorEvt, Event.closeEvt] (by decide)).2.2.1

/-- Shared concrete cache value: a nested object, as in the spec scenario
with key entity:7:variant:false. -/
def sampleVal : Json :=
  Json.obj [("id", Json.num 7), ("variant", Json.bool false),
            ("nested", Json.obj [("tags", Json.arr [Json.str "a", Json.str "b"])])]

/-- Shared concrete cache state holding the sample value. -/
def sampleState : CacheService.State :=
  { isHealthy := true
    store := [{ key := "entity:7:variant:false", val := stringify sampleVal,
                expireAt := 300 }]
    reconnectAttempts := 0
    recovery := none }

open CacheService in
/-- C6: CacheService.get never throws to its caller (the embedding is a
total function covering the catch branch): it returns the deserialized
value on a hit; and it returns none on a genuine miss, on a
deserialization failure of the stored payload (which also marks the
layer unhealthy), and whenever the health flag is false — in every
degraded case the first component is none, exactly as on a miss, so a
failed read is indistinguishable from a miss for the caller. -/
theorem cache_get_total_and_degrades (s : State) (now : Int) (k : String) :
    (s.isHealthy = false → get s now k = (none, s)) ∧
    (s.isHealthy = true → redisGet s.store now k = none →
      get s now k = (none, s)) ∧
    (∀ p, s.isHealthy = true → redisGet s.store now k = some p →
      parse p = none → get s now k = (none, markUnhealthy s 30000)) ∧
    (∀ p v, s.isHealthy = true → redisGet s.store now k = some p →
      parse p = some v → get s now k = (some v, s)) := by
  refine ⟨?_, ?_, ?_, ?_⟩
  · intro hh
    simp [CacheService.get, hh]
  · intro hh hmiss
    simp [CacheService.get, hh, hmiss]
  · intro p hh hsome hp
    simp [CacheService.get, hh, hsome, hp]
  · intro p v hh hsome hp
    simp [CacheService.get, hh, hsome, hp]

open CacheService in
/-- Witness for the C6 theorem on the hit branch at a concrete state. -/
theorem cache_get_total_and_degrades_witness :
    get sampleState 0 "entity:7:variant:false" = (some sampleVal, sampleState) :=
  (cache_get_total_and_degrades sampleState 0 "entity:7:variant:false").2.2.2
    (stringify sampleVal) sampleVal rfl rfl rfl

/-- C8 counterexample: ttl = 0 is falsy in JS, so set(k, v, 0) stores the
value with the default TTL of 300 seconds; after 0 seconds elapse (the
claimed ttl), get(k) still returns the value instead of empty, so the
claim fails at ttl = 0. -/
theorem cache_ttl_zero_counterexample :
    (CacheService.get
      (CacheService.set
        { isHealthy := true, store := [], reconnectAttempts := 0,
          recovery := none }
        0 "k" (Json.num 1) (some 0))
      (0 + 0) "k").1 = some (Json.num 1) ∧
    ¬ (CacheService.get
      (CacheService.set
        { isHealthy := true, store := [], reconnectAttempts := 0,
          recovery := none }
        0 "k" (Json.num 1) (some 0))
      (0 + 0) "k").1 = none := by
  have h1 : (CacheService.get
      (CacheService.set
        { isHealthy := true, store := [], reconnectAttempts := 0,
          recovery := none }
        0 "k" (Json.num 1) (some 0))
      (0 + 0) "k").1 = some (Json.num 1) := rfl
  exact ⟨h1, fun h => Option.some_ne_none (Json.num 1) (h1.symm.trans h)⟩

open CacheService in
/-- C8 amended: for every key, every serializable value (any Json tree,
nested objects included) and every ttl >= 1, when the cache is healthy,
set(k, v, ttl) immediately followed by get(k) returns a value
structurally equal to v, and once ttl seconds have elapsed with no
further writes, get(k) returns empty.  For ttl = 0 the source falls back
to the default TTL of 300 seconds (the JS or-expression treats 0 as
falsy), so set with ttl 0 behaves exactly like set with no ttl. -/
theorem cache_set_get_roundtrip (s : State) (now later ttl : Int)
    (k : String) (v : Json)
    (hh : s.isHealthy = true) (httl : 1 ≤ ttl) (hlater : now + ttl ≤ later) :
    (CacheService.get (CacheService.set s now k v (some ttl)) now k).1 = some v ∧
    (CacheService.get (CacheService.set s now k v (some ttl)) later k).1 = none ∧
    CacheService.set s now k v (some 0) = CacheService.set s now k v none := by
  have hne : (ttl == 0) = false := by
    simp only [beq_eq_false_iff_ne, ne_eq]
    omega
  have hnneg : ¬ ttl < 0 := by omega
  have hset : CacheService.set s now k v (some ttl) =
      { s with store := redisSetex s.store now k ttl (stringify v) } := by
    simp [CacheService.set, hh, hne, hnneg]
  refine ⟨?_, ?_, rfl⟩
  · rw [hset]
    simp only [CacheService.get, hh, redisGet, redisSetex, List.find?,
      beq_self_eq_true, Bool.not_true, Bool.false_eq_true, if_false]
    rw [if_pos (show now < now + ttl by omega)]
    rfl
  · rw [hset]
    simp only [CacheService.get, hh, redisGet, redisSetex, List.find?,
      beq_self_eq_true, Bool.not_true, Bool.false_eq_true, if_false]
    rw [if_neg (show ¬ later < now + ttl by omega)]

open CacheService in
/-- Witness for the amended C8 theorem: TTL 300, the nested sample value,
read back immediately at the same instant. -/
theorem cache_set_get_roundtrip_witness :
    (CacheService.get
      (CacheService.set
        { isHealthy := true, store := [], reconnectAttempts := 0,
          recovery := none }
        0 "entity:7:variant:false" sampleVal (some 300))
      0 "entity:7:variant:false").1 = some sampleVal :=
  (cache_set_get_roundtrip
    { isHealthy := true, store := [], reconnectAttempts := 0, recovery := none }
    0 300 300 "entity:7:variant:false" sampleVal rfl (by decide) (by decide)).1

/-- Shared concrete cache state holding one corrupt stored payload. -/
def corruptState : CacheService.State :=
  { isHealthy := true
    store := [{ key := "bad", val := Payload.corrupt, expireAt := 300 }]
    reconnectAttempts := 0
    recovery := none }

open CacheService in
/-- C10: a deserialization failure in CacheService.get returns none for
that key and calls markUnhealthy(30000), so the whole layer is flagged
unhealthy with the 30-second recovery timer pending; while that flag is
down, get returns none for every key, set and invalidatePattern no-op,
and delete reports false for every key — one corrupt entry suppresses
reads and writes of all keys for the recovery window. -/
theorem corrupt_entry_poisons_cache (s : State) (now : Int) (k : String)
    (hh : s.isHealthy = true)
    (hcor : redisGet s.store now k = some Payload.corrupt) :
    CacheService.get s now k = (none, markUnhealthy s 30000) ∧
    (markUnhealthy s 30000).isHealthy = false ∧
    (markUnhealthy s 30000).recovery = some 30000 ∧
    (∀ now2 k2, CacheService.get (markUnhealthy s 30000) now2 k2 =
      (none, markUnhealthy s 30000)) ∧
    (∀ now2 k2 v ttl, CacheService.set (markUnhealthy s 30000) now2 k2 v ttl =
      markUnhealthy s 30000) ∧
    (∀ now2 k2, deleteKey (markUnhealthy s 30000) now2 k2 =
      (false, markUnhealthy s 30000)) ∧
    (∀ now2 pat, invalidatePattern (markUnhealthy s 30000) now2 pat =
      (0, markUnhealthy s 30000)) := by
  refine ⟨?_, rfl, rfl, ?_, ?_, ?_, ?_⟩
  · simp [CacheService.get, hh, hcor, parse]
  · intro now2 k2
    simp [CacheService.get, markUnhealthy]
  · intro now2 k2 v ttl
    simp [CacheService.set, markUnhealthy]
  · intro now2 k2
    simp [deleteKey, markUnhealthy]
  · intro now2 pat
    simp [invalidatePattern, markUnhealthy]

open CacheService in
/-- Witness for the C10 theorem at the concrete corrupt state. -/
theorem corrupt_entry_poisons_cache_witness :
    CacheService.get corruptState 0 "bad" =
      (none, markUnhealthy corruptState 30000) :=
  (corrupt_entry_poisons_cache corruptState 0 "bad" rfl rfl).1

namespace CacheService

/-- Filtering with a predicate that keeps every entry of the looked-up
key does not change the result of the key lookup: the entries the filter
drops are invisible to find?. -/
theorem find?_filter_key :
    ∀ (l : List Entry) (p : Entry → Bool) (k : String),
      (∀ e ∈ l, e.key = k → p e = true) →
      (l.filter p).find? (fun e => e.key == k) = l.find? (fun e => e.key == k)
  | [], p, k => fun _ => rfl
  | e :: rest, p, k => by
      intro h
      have hrest := fun x hx => h x (List.mem_cons_of_mem e hx)
      by_cases hp : p e = true
      · rw [List.filter_cons_of_pos hp]
        by_cases hk : (e.key == k) = true
        · simp [List.find?_cons, hk]
        · simp only [List.find?_cons, hk]
          exact find?_filter_key rest p k hrest
      · have hk : (e.key == k) = false := by
          rw [beq_eq_false_iff_ne]
          intro hke
          exact hp (h e (List.mem_cons_self e rest) hke)
        rw [List.filter_cons_of_neg (by simpa using hp)]
        rw [find?_filter_key rest p k hrest]
        simp [List.find?_cons, hk]

/-- Under duplicate-free keys, looking up the key of a member entry
finds exactly that entry. -/
theorem find?_eq_of_nodup :
    ∀ (store : List Entry) (e : Entry),
      (store.map Entry.key).Nodup → e ∈ store →
      store.find? (fun x => x.key == e.key) = some e
  | [], e => by
      intro _ he
      simp at he
  | f :: rest, e => by
      intro hnd he
      simp only [List.map_cons, List.nodup_cons] at hnd
      by_cases hk : (f.key == e.key) = true
      · have hfe : e = f := by
          rcases List.mem_cons.mp he with h | h
          · exact h
          · exfalso
            apply hnd.1
            have : e.key ∈ rest.map Entry.key := List.mem_map_of_mem Entry.key h
            rwa [show f.key = e.key from by simpa using hk]
        rw [hfe]
        simp [List.find?_cons, hk]
      · have he' : e ∈ rest := by
          rcases List.mem_cons.mp he with h | h
          · exact absurd (by rw [h]) (by simpa using hk : ¬ f.key = e.key)
          · exact h
        rw [List.find?_cons]
        simp only [hk]
        exact find?_eq_of_nodup rest e hnd.2 he'

/-- Under duplicate-free keys, two member entries with the same key are
the same entry. -/
theorem key_inj (store : List Entry) (hnd : (store.map Entry.key).Nodup)
    (e1 e2 : Entry) (h1 : e1 ∈ store) (h2 : e2 ∈ store)
    (hk : e1.key = e2.key) : e1 = e2 := by
  have q1 := find?_eq_of_nodup store e1 hnd h1
  have q2 := find?_eq_of_nodup store e2 hnd h2
  rw [hk] at q1
  rw [q1] at q2
  exact Option.some.inj q2

end CacheService

namespace CacheService

/-- Liveness of a key is unchanged by a filter that keeps all entries of
that key. -/
theorem isLive_filter (store : List Entry) (now : Int) (k : String)
    (p : Entry → Bool) (h : ∀ e ∈ store, e.key = k → p e = true) :
    isLive (store.filter p) now k = isLive store now k := by
  simp only [isLive, redisGet, find?_filter_key store p k h]

/-- KEYS returns duplicate-free keys when the store keys are
duplicate-free. -/
theorem redisKeys_nodup (store : List Entry) (now : Int) (pat : String)
    (hnd : (store.map Entry.key).Nodup) :
    (redisKeys store now pat).Nodup := by
  simp only [redisKeys]
  exact List.Nodup.sublist
    (List.Sublist.map Entry.key (List.filter_sublist store)) hnd

/-- Every key returned by KEYS is live in the store. -/
theorem mem_redisKeys_live (store : List Entry) (now : Int) (pat : String)
    (hnd : (store.map Entry.key).Nodup) (k : String)
    (hk : k ∈ redisKeys store now pat) : isLive store now k = true := by
  simp only [redisKeys, List.mem_map] at hk
  obtain ⟨e, he, hke⟩ := hk
  rw [List.mem_filter] at he
  have hfind := find?_eq_of_nodup store e hnd he.1
  have hlt : decide (now < e.expireAt) = true := by
    have := he.2
    simp only [Bool.and_eq_true] at this
    exact this.1
  subst hke
  simp [isLive, redisGet, hfind, decide_eq_true_eq.mp hlt]

/-- Membership of an entry key in the KEYS result is exactly the
liveness-and-match predicate of the entry. -/
theorem contains_redisKeys (store : List Entry) (now : Int) (pat : String)
    (hnd : (store.map Entry.key).Nodup) (e : Entry) (he : e ∈ store) :
    (redisKeys store now pat).contains e.key =
      (decide (now < e.expireAt) && globMatch pat e.key) := by
  by_cases hq : (decide (now < e.expireAt) && globMatch pat e.key) = true
  · rw [hq]
    have : e.key ∈ redisKeys store now pat := by
      simp only [redisKeys, List.mem_map]
      exact ⟨e, List.mem_filter.mpr ⟨he, hq⟩, rfl⟩
    rw [List.contains_iff_exists_mem_beq]
    exact ⟨e.key, this, by simp⟩
  · rw [Bool.eq_false_iff.mpr hq]
    rw [Bool.eq_false_iff]
    intro hcon
    have hmem : e.key ∈ redisKeys store now pat := by
      rw [List.contains_iff_exists_mem_beq] at hcon
      obtain ⟨a, ha, hbeq⟩ := hcon
      rwa [show e.key = a from by simpa using hbeq]
    simp only [redisKeys, List.mem_map] at hmem
    obtain ⟨e2, he2, hke⟩ := hmem
    rw [List.mem_filter] at he2
    have : e2 = e := key_inj store hnd e2 e he2.1 he hke
    rw [this] at he2
    exact hq he2.2

end CacheService

namespace CacheService

/-- List.contains on strings is membership. -/
theorem contains_eq_decide (l : List String) (a : String) :
    l.contains a = decide (a ∈ l) := by
  rw [show l.contains a = l.elem a from rfl, List.elem_eq_mem]

/-- Every batch produced by the deletion loop holds at most batchSize
keys. -/
theorem batches_length_le (l : List String) :
    ∀ b ∈ batches l, b.length ≤ batchSize := by
  induction l using batches.induct with
  | case1 =>
      intro b hb
      simp [batches] at hb
  | case2 x xs ih =>
      intro b hb
      rw [batches] at hb
      rcases List.mem_cons.mp hb with h | h
      · rw [h]
        simp [List.length_take]
      · exact ih b h

/-- The concatenation of the batches is the original key list. -/
theorem batches_join (l : List String) : (batches l).flatten = l := by
  induction l using batches.induct with
  | case1 => simp [batches]
  | case2 x xs ih =>
      rw [batches]
      simp only [List.flatten_cons, ih]
      exact List.take_append_drop batchSize (x :: xs)

/-- Running the deletion loop over the batches of a duplicate-free list
of keys that are all live deletes exactly those keys and counts each of
them once. -/
theorem delFold (now : Int) (ks : List String) :
    ∀ (store : List Entry) (acc : Nat),
      ks.Nodup → (∀ k ∈ ks, isLive store now k = true) →
      (batches ks).foldl (delStep now) (acc, store) =
        (acc + ks.length, store.filter (fun e => !ks.contains e.key)) := by
  induction ks using batches.induct with
  | case1 =>
      intro store acc _ _
      simp [batches, List.contains]
  | case2 x xs ih =>
      intro store acc hnd hlive
      have hsplit : (x :: xs).take batchSize ++ (x :: xs).drop batchSize
          = x :: xs := List.take_append_drop batchSize (x :: xs)
      have hnd2 : ((x :: xs).take batchSize ++ (x :: xs).drop batchSize).Nodup := by
        rw [hsplit]
        exact hnd
      rw [List.nodup_append] at hnd2
      have hlive_t : ∀ k ∈ (x :: xs).take batchSize,
          isLive store now k = true :=
        fun k hk => hlive k (List.take_subset batchSize (x :: xs) hk)
      have hstep : delStep now (acc, store) ((x :: xs).take batchSize) =
          (acc + ((x :: xs).take batchSize).length,
           store.filter
             (fun e => !((x :: xs).take batchSize).contains e.key)) := by
        have hfil : ((x :: xs).take batchSize).filter
            (fun k => isLive store now k) = (x :: xs).take batchSize :=
          List.filter_eq_self.mpr hlive_t
        simp [delStep, redisDel, hfil]
      have hlive_d : ∀ k ∈ (x :: xs).drop batchSize,
          isLive store now k = true :=
        fun k hk => hlive k (List.drop_subset batchSize (x :: xs) hk)
      have hlive_d2 : ∀ k ∈ (x :: xs).drop batchSize,
          isLive
            (store.filter
              (fun e => !((x :: xs).take batchSize).contains e.key))
            now k = true := by
        intro k hk
        have hnotin : k ∉ (x :: xs).take batchSize := by
          intro hmem
          exact hnd2.2.2 hmem hk
        rw [isLive_filter]
        · exact hlive_d k hk
        · intro e _ hek
          rw [hek, contains_eq_decide]
          simp [hnotin]
      rw [batches, List.foldl_cons, hstep,
        ih (store.filter
              (fun e => !((x :: xs).take batchSize).contains e.key))
           (acc + ((x :: xs).take batchSize).length) hnd2.2.1 hlive_d2]
      have hlen : ((x :: xs).take batchSize).length +
          ((x :: xs).drop batchSize).length = (x :: xs).length := by
        have h := congrArg List.length hsplit
        rw [List.length_append] at h
        exact h
      have hstore : (store.filter
            (fun e => !((x :: xs).take batchSize).contains e.key)).filter
            (fun e => !((x :: xs).drop batchSize).contains e.key) =
          store.filter (fun e => !(x :: xs).contains e.key) := by
        rw [List.filter_filter]
        apply List.filter_congr
        intro e _
        rw [contains_eq_decide, contains_eq_decide, contains_eq_decide]
        by_cases h1 : e.key ∈ (x :: xs).take batchSize
        · have hm : e.key ∈ x :: xs := List.take_subset _ _ h1
          simp [h1, hm]
        · by_cases h2 : e.key ∈ (x :: xs).drop batchSize
          · have hm : e.key ∈ x :: xs := List.drop_subset _ _ h2
            simp [h1, h2, hm]
          · have hm : e.key ∉ x :: xs := by
              intro hmem
              rw [← hsplit] at hmem
              rcases List.mem_append.mp hmem with h | h
              · exact h1 h
              · exact h2 h
            simp [h1, h2, hm]
      rw [Prod.mk.injEq]
      exact ⟨by omega, hstore⟩

/-- The count and store formulas of invalidatePattern on a healthy
state with duplicate-free keys: the count is the number of live matching
entries and the store keeps exactly the other entries. -/
theorem invalidatePattern_eq (s : State) (now : Int) (pat : String)
    (hh : s.isHealthy = true)
    (hnd : (s.store.map Entry.key).Nodup) :
    invalidatePattern s now pat =
      ((s.store.filter (fun e =>
          decide (now < e.expireAt) && globMatch pat e.key)).length,
       { s with store := s.store.filter (fun e =>
          !(decide (now < e.expireAt) && globMatch pat e.key)) }) := by
  have hcount : (redisKeys s.store now pat).length =
      (s.store.filter (fun e =>
        decide (now < e.expireAt) && globMatch pat e.key)).length := by
    simp [redisKeys]
  have hcongr : s.store.filter
      (fun e => !(redisKeys s.store now pat).contains e.key) =
      s.store.filter (fun e =>
        !(decide (now < e.expireAt) && globMatch pat e.key)) := by
    apply List.filter_congr
    intro e he
    rw [contains_redisKeys s.store now pat hnd e he]
  by_cases hemp : (redisKeys s.store now pat).isEmpty = true
  · have hnil : redisKeys s.store now pat = [] := by
      rwa [List.isEmpty_iff] at hemp
    have hfilnil : s.store.filter (fun e =>
        decide (now < e.expireAt) && globMatch pat e.key) = [] := by
      have := hnil
      simp only [redisKeys] at this
      exact List.map_eq_nil_iff.mp this
    have hall : s.store.filter (fun e =>
        !(decide (now < e.expireAt) && globMatch pat e.key)) = s.store := by
      rw [List.filter_eq_self]
      intro e he
      rw [Bool.not_eq_eq_eq_not, Bool.not_true]
      rw [List.filter_eq_nil_iff] at hfilnil
      exact Bool.eq_false_iff.mpr (hfilnil e he)
    simp only [invalidatePattern, hh, Bool.not_true, Bool.false_eq_true,
      if_false, hemp, if_true, hfilnil, List.length_nil]
    rw [hall]
    congr 1
    obtain ⟨ihh, st, ra, rec⟩ := s
    rw [show ihh = true from hh]
  · have hlive := fun k hk =>
      mem_redisKeys_live s.store now pat hnd k hk
    have hfold := delFold now (redisKeys s.store now pat) s.store 0
      (redisKeys_nodup s.store now pat hnd) hlive
    simp only [invalidatePattern, hh, Bool.not_true, Bool.false_eq_true,
      if_false, hemp, hfold, Nat.zero_add]
    rw [hcount, hcongr]

end CacheService

open CacheService in
/-- C7: on a healthy layer (with duplicate-free store keys, which Redis
guarantees), invalidatePattern deletes exactly the live keys matching
the glob pattern and leaves non-matching entries untouched, issues the
deletions in batches of at most 1000 keys per round trip, and returns
the total number of keys removed — for 0, 1 or more than 1000 matches
alike, since the store is arbitrary; when unhealthy it deletes nothing
and returns 0. -/
theorem invalidatePattern_correct (s : State) (now : Int) (pat : String)
    (hh : s.isHealthy = true)
    (hnd : (s.store.map Entry.key).Nodup) :
    (invalidatePattern s now pat).1 =
      (s.store.filter (fun e =>
        decide (now < e.expireAt) && globMatch pat e.key)).length ∧
    (invalidatePattern s now pat).2.store =
      s.store.filter (fun e =>
        !(decide (now < e.expireAt) && globMatch pat e.key)) ∧
    (invalidatePattern s now pat).2.isHealthy = true ∧
    (∀ b ∈ batches (redisKeys s.store now pat), b.length ≤ batchSize) ∧
    (∀ e ∈ s.store, globMatch pat e.key = false →
      e ∈ (invalidatePattern s now pat).2.store) ∧
    (∀ e ∈ (invalidatePattern s now pat).2.store,
      (decide (now < e.expireAt) && globMatch pat e.key) = false) ∧
    (∀ s2 : State, s2.isHealthy = false →
      invalidatePattern s2 now pat = (0, s2)) := by
  have heq := invalidatePattern_eq s now pat hh hnd
  refine ⟨by rw [heq], by rw [heq], by rw [heq]; exact hh,
    batches_length_le (redisKeys s.store now pat), ?_, ?_, ?_⟩
  · intro e he hmatch
    rw [heq]
    exact List.mem_filter.mpr ⟨he, by simp [hmatch]⟩
  · intro e he
    rw [heq] at he
    have h2 := (List.mem_filter.mp he).2
    rw [Bool.not_eq_true'] at h2
    exact h2
  · intro s2 h2
    simp [invalidatePattern, h2]

/-- Shared concrete store for the pattern-invalidation witness: two live
keys under the p: namespace and one unrelated key. -/
def patState : CacheService.State :=
  { isHealthy := true
    store := [{ key := "p:1", val := stringify (Json.num 1), expireAt := 100 },
              { key := "p:2", val := stringify (Json.num 2), expireAt := 100 },
              { key := "q:1", val := stringify (Json.num 3), expireAt := 100 }]
    reconnectAttempts := 0
    recovery := none }

open CacheService in
/-- Witness for the C7 theorem: pattern p:* removes the two p: keys. -/
theorem invalidatePattern_correct_witness :
    (invalidatePattern patState 0 "p:*").1 = 2 :=
  ((invalidatePattern_correct patState 0 "p:*" rfl (by decide)).1).trans rfl
